import Mathlib

/-!
# Verification of the petri process-manager core

A shallow embedding, in Lean 4, of the parts of the petri daemon that the
specification's claims are about:

* the output ring (`LogBuffer::append` in `crates/petri-utils/src/log_buf.rs`);
* the jid digest (`JobDescription::digest` in `crates/petri-core/src/job_mgr.rs`),
  including an executable SHA-1;
* the supervisor pipe-reader task (`Inner::read_stdio` in
  `crates/petri-core/src/process.rs`);
* the supervisor kill state machine (`Process::kill` / `Inner::monit_process`);
* the process manager's exit dispatch and `stop_process`
  (`crates/petri-core/src/process_mgr.rs`);
* the job registry's exit callback and `start_job`
  (`crates/petri-core/src/job_mgr.rs`);
* the `stop` command handler (`src/control/command/stop.rs`).

Rust strings are modelled as their UTF-8 byte sequences (`List Byte` with
`Byte := Nat`, values < 256 where it matters); maps (`IndexMap`, `HashMap`)
are modelled as association lists in iteration order, looked up by first
match.
-/

set_option maxHeartbeats 1000000
set_option maxRecDepth 100000

namespace Petri

/-- A byte, modelled as an unbounded natural; the embedded code only ever
produces values < 256. -/
abbrev Byte := Nat

/-- UTF-8 bytes of an ASCII string (used only for ASCII literals in
concrete test inputs). -/
def asciiBytes (s : String) : List Byte :=
  s.toList.map Char.toNat

/-- Association-list lookup by first matching key: the model of
`IndexMap::get` / `HashMap::get`. -/
def alookup {α : Type} [DecidableEq α] {β : Type} : List (α × β) → α → Option β
  | [], _ => none
  | kv :: rest, key => if kv.1 = key then some kv.2 else alookup rest key

/-! ## Output ring: `LogBuffer` (`crates/petri-utils/src/log_buf.rs`)

The Rust type is a `VecDeque<u8>` created `with_capacity(cap)`; we model it
as the capacity together with the byte contents in order. -/

structure LogBuffer where
  cap : Nat
  data : List Byte

/-- One round of the inner eviction loop of `LogBuffer::append`:
`while let Some(b) = self.0.pop_front() { if b == b'\n' { break; } }`,
i.e. pop bytes up to and including the first `\n` (byte 10); when no
newline remains, pop everything. -/
def popLine : List Byte → List Byte
  | [] => []
  | b :: rest => if b = 10 then rest else popLine rest

theorem popLine_length_le (l : List Byte) : (popLine l).length ≤ l.length := by
  induction l with
  | nil => simp [popLine]
  | cons b rest ih =>
    simp only [popLine]
    by_cases hb : b = 10
    · simp [hb]
    · simp only [hb, if_false]
      exact Nat.le_trans ih (Nat.le_succ _)

theorem popLine_cons_length (b : Byte) (rest : List Byte) :
    (popLine (b :: rest)).length ≤ rest.length := by
  simp only [popLine]
  by_cases hb : b = 10
  · simp [hb]
  · simp only [hb, if_false]
    exact popLine_length_le rest

/-- The outer loop of `LogBuffer::append` in the `buf_len < cap` case:
re-check `remaining >= buf_len` before every eviction round, evicting one
line per round.  The `data = []` case with an unsatisfied guard cannot be
reached when `blen < cap` (then `cap - 0 ≥ blen` holds); it is present only
to make the recursion total. -/
def evictLines (cap blen : Nat) (data : List Byte) : List Byte :=
  if blen ≤ cap - data.length then data
  else
    match data with
    | [] => []
    | b :: rest => evictLines cap blen (popLine (b :: rest))
termination_by data.length
decreasing_by
  exact Nat.lt_succ_of_le (popLine_cons_length b rest)

/-- Model of `LogBuffer::append`: when `|buf| ≥ cap`, clear and keep the trailing
`cap` bytes of the input; otherwise evict whole lines until the free space
suffices, then extend with `buf`. -/
def LogBuffer.append (lb : LogBuffer) (buf : List Byte) : LogBuffer :=
  if buf.length ≥ lb.cap then
    { lb with data := buf.drop (buf.length - lb.cap) }
  else
    { lb with data := evictLines lb.cap buf.length lb.data ++ buf }

/-- Model of `LogBuffer::with_capacity`. -/
def LogBuffer.withCapacity (cap : Nat) : LogBuffer := ⟨cap, []⟩

/-- Model of `LogBuffer::len`. -/
def LogBuffer.len (lb : LogBuffer) : Nat := lb.data.length

theorem iterate_popLine_length_le (k : Nat) (data : List Byte) :
    (popLine^[k] data).length ≤ data.length := by
  induction k generalizing data with
  | zero => simp
  | succ k ih =>
    rw [Function.iterate_succ_apply]
    exact Nat.le_trans (ih (popLine data)) (popLine_length_le data)

/-- Characterisation of the eviction loop: it returns the first iterate of
`popLine` whose free space fits `blen`, provided `blen ≤ cap`. -/
theorem evictLines_spec (cap blen : Nat) (data : List Byte) (hb : blen ≤ cap) :
    ∃ k, evictLines cap blen data = popLine^[k] data
      ∧ blen ≤ cap - (popLine^[k] data).length
      ∧ ∀ j, j < k → cap - (popLine^[j] data).length < blen := by
  have main : ∀ n (d : List Byte), d.length ≤ n →
      ∃ k, evictLines cap blen d = popLine^[k] d
        ∧ blen ≤ cap - (popLine^[k] d).length
        ∧ ∀ j, j < k → cap - (popLine^[j] d).length < blen := by
    intro n
    induction n with
    | zero =>
      intro d hd
      have hnil : d = [] := List.length_eq_zero.mp (Nat.le_zero.mp hd)
      subst hnil
      refine ⟨0, ?_, ?_, ?_⟩
      · rw [evictLines.eq_def]; simp [hb]
      · simpa using hb
      · intro j hj; omega
    | succ n ih =>
      intro d hd
      by_cases hguard : blen ≤ cap - d.length
      · refine ⟨0, ?_, by simpa using hguard, by intro j hj; omega⟩
        rw [evictLines.eq_def]; simp [hguard]
      · match d with
        | [] => simp at hguard; omega
        | b :: rest =>
          have hlen : (popLine (b :: rest)).length ≤ n := by
            have := popLine_cons_length b rest
            simp at hd
            omega
          obtain ⟨k, h1, h2, h3⟩ := ih (popLine (b :: rest)) hlen
          refine ⟨k + 1, ?_, ?_, ?_⟩
          · rw [evictLines.eq_def]
            simp only [hguard, if_false]
            rw [Function.iterate_succ_apply]
            exact h1
          · rw [Function.iterate_succ_apply]
            exact h2
          · intro j hj
            match j with
            | 0 => simpa using Nat.lt_of_not_le hguard
            | j + 1 =>
              rw [Function.iterate_succ_apply]
              exact h3 j (by omega)
  exact main data.length data (Nat.le_refl _)

/-- Claim C2: For every output ring and every call `append b`: if
`|b| ≥ capacity` the ring afterwards is exactly the suffix of `b` of
length `capacity`; otherwise whole lines are evicted from the front
(each eviction round pops bytes up to and including the next newline, or
everything when none remains) until the free space fits `|b|` — and no
earlier iterate already fit — and then `b` is appended in full; in every
case the ring length stays `≤ capacity`; and appending
`"line1\nline2\n"` then `"goodbye"` to a 16-byte ring leaves
`"line2\ngoodbye"`. -/
theorem logBuffer_append_spec (cap : Nat) (data b : List Byte)
    (hinv : data.length ≤ cap) :
    (b.length ≥ cap →
       (LogBuffer.append ⟨cap, data⟩ b).data = b.drop (b.length - cap))
  ∧ (b.length < cap →
       ∃ k, (LogBuffer.append ⟨cap, data⟩ b).data = popLine^[k] data ++ b
         ∧ b.length ≤ cap - (popLine^[k] data).length
         ∧ ∀ j, j < k → cap - (popLine^[j] data).length < b.length)
  ∧ (LogBuffer.append ⟨cap, data⟩ b).data.length ≤ cap
  ∧ (LogBuffer.append (LogBuffer.append (LogBuffer.withCapacity 16)
       (asciiBytes "line1\nline2\n")) (asciiBytes "goodbye")).data
       = asciiBytes "line2\ngoodbye" := by
  refine ⟨?_, ?_, ?_, ?_⟩
  · intro hge
    simp [LogBuffer.append, hge]
  · intro hlt
    obtain ⟨k, h1, h2, h3⟩ := evictLines_spec cap b.length data (Nat.le_of_lt hlt)
    refine ⟨k, ?_, h2, h3⟩
    simp only [LogBuffer.append, ge_iff_le, Nat.not_le.mpr hlt, if_false]
    rw [h1]
  · by_cases hge : b.length ≥ cap
    · simp only [LogBuffer.append, ge_iff_le, hge, if_true]
      simp [List.length_drop]
      omega
    · have hlt : b.length < cap := Nat.lt_of_not_le hge
      obtain ⟨k, h1, h2, _⟩ := evictLines_spec cap b.length data (Nat.le_of_lt hlt)
      simp only [LogBuffer.append, ge_iff_le, hge, if_false]
      rw [h1]
      have hk := iterate_popLine_length_le k data
      simp only [List.length_append]
      omega
  · simp [LogBuffer.append, LogBuffer.withCapacity, asciiBytes, evictLines, popLine]

/-- Witness for C2: the theorem applied at concrete inputs, discharging
the ring invariant, the overflow guard and the eviction guard. -/
theorem logBuffer_append_spec_witness :
    (LogBuffer.append ⟨16, asciiBytes "line1\nline2\n"⟩
       (asciiBytes "goodbye")).data.length ≤ 16
    ∧ (LogBuffer.append ⟨16, []⟩ (asciiBytes "abcdefghijklmnopqr")).data
        = (asciiBytes "abcdefghijklmnopqr").drop
            ((asciiBytes "abcdefghijklmnopqr").length - 16)
    ∧ ∃ k, (LogBuffer.append ⟨16, asciiBytes "line1\nline2\n"⟩
              (asciiBytes "goodbye")).data
              = popLine^[k] (asciiBytes "line1\nline2\n") ++ asciiBytes "goodbye"
         ∧ (asciiBytes "goodbye").length
             ≤ 16 - (popLine^[k] (asciiBytes "line1\nline2\n")).length
         ∧ ∀ j, j < k →
             16 - (popLine^[j] (asciiBytes "line1\nline2\n")).length
               < (asciiBytes "goodbye").length :=
  ⟨(logBuffer_append_spec 16 (asciiBytes "line1\nline2\n")
      (asciiBytes "goodbye") (by decide)).2.2.1,
   (logBuffer_append_spec 16 [] (asciiBytes "abcdefghijklmnopqr")
      (by decide)).1 (by decide),
   (logBuffer_append_spec 16 (asciiBytes "line1\nline2\n")
      (asciiBytes "goodbye") (by decide)).2.1 (by decide)⟩

/-! ## SHA-1 (the `sha1` crate as used by `JobDescription::digest`)

An executable SHA-1 over byte lists, 32-bit words modelled as `Nat`
reduced `% 2^32`. -/

/-- Truncate to a 32-bit word. -/
def w32 (n : Nat) : Nat := n % 4294967296

/-- Left-rotate a 32-bit word by `s` (0 < s < 32). -/
def rotl (s x : Nat) : Nat := w32 (x <<< s ||| x >>> (32 - s))

/-- Big-endian bytes of a 32-bit word. -/
def toBE32 (x : Nat) : List Byte :=
  [x >>> 24 % 256, x >>> 16 % 256, x >>> 8 % 256, x % 256]

/-- Big-endian bytes of a 64-bit word (`u64::to_be_bytes`). -/
def toBE64 (x : Nat) : List Byte :=
  [x >>> 56 % 256, x >>> 48 % 256, x >>> 40 % 256, x >>> 32 % 256,
   x >>> 24 % 256, x >>> 16 % 256, x >>> 8 % 256, x % 256]

/-- Group bytes into big-endian 32-bit words. -/
def bytesToWords : List Byte → List Nat
  | a :: b :: c :: d :: rest =>
      (a <<< 24 ||| b <<< 16 ||| c <<< 8 ||| d) :: bytesToWords rest
  | _ => []

/-- Split a byte list into 64-byte blocks (fuel-structured so it reduces
in the kernel; the fuel `l.length` always suffices). -/
def chunksAux : Nat → List Byte → List (List Byte)
  | 0, _ => []
  | _, [] => []
  | n + 1, l => l.take 64 :: chunksAux n (l.drop 64)

/-- Split a byte list into 64-byte blocks. -/
def chunks64 (l : List Byte) : List (List Byte) :=
  chunksAux l.length l

/-- Extend the 16 words of a block to the 80-word message schedule:
each new word is `rotl 1 (w[i-3] xor w[i-8] xor w[i-14] xor w[i-16])`. -/
def buildW (w : List Nat) : Nat → List Nat
  | 0 => w
  | n + 1 =>
      buildW (w ++ [rotl 1 (w.getD (w.length - 3) 0 ^^^ w.getD (w.length - 8) 0
        ^^^ w.getD (w.length - 14) 0 ^^^ w.getD (w.length - 16) 0)]) n

/-- One SHA-1 round: state `(a,b,c,d,e)`, round index `i`, schedule word. -/
def sha1Round (st : Nat × Nat × Nat × Nat × Nat) (iw : Nat × Nat) :
    Nat × Nat × Nat × Nat × Nat :=
  let (a, b, c, d, e) := st
  let (i, wi) := iw
  let f :=
    if i < 20 then (b &&& c) ||| ((b ^^^ 4294967295) &&& d)
    else if i < 40 then b ^^^ c ^^^ d
    else if i < 60 then (b &&& c) ||| (b &&& d) ||| (c &&& d)
    else b ^^^ c ^^^ d
  let k :=
    if i < 20 then 0x5A827999
    else if i < 40 then 0x6ED9EBA1
    else if i < 60 then 0x8F1BBCDC
    else 0xCA62C1D6
  (w32 (rotl 5 a + f + e + k + wi), a, rotl 30 b, c, d)

/-- Compress one 64-byte block into the running hash state. -/
def sha1Block (h : Nat × Nat × Nat × Nat × Nat) (block : List Byte) :
    Nat × Nat × Nat × Nat × Nat :=
  let w := buildW (bytesToWords block) 64
  let (h0, h1, h2, h3, h4) := h
  let (a, b, c, d, e) := w.enum.foldl sha1Round h
  (w32 (h0 + a), w32 (h1 + b), w32 (h2 + c), w32 (h3 + d), w32 (h4 + e))

/-- SHA-1 of a byte string, as its 20-byte digest. -/
def sha1 (msg : List Byte) : List Byte :=
  let len := msg.length
  let padded := msg ++ [128] ++ List.replicate ((119 - len % 64) % 64) 0
    ++ toBE64 (8 * len)
  let (h0, h1, h2, h3, h4) := (chunks64 padded).foldl sha1Block
    (0x67452301, 0xEFCDAB89, 0x98BADCFE, 0x10325476, 0xC3D2E1F0)
  toBE32 h0 ++ toBE32 h1 ++ toBE32 h2 ++ toBE32 h3 ++ toBE32 h4

/-- Lower-case hex digit of a nibble. -/
def hexDigit (n : Nat) : Char :=
  if n < 10 then Char.ofNat (48 + n) else Char.ofNat (87 + n)

/-- The two lower-case hex digits of one byte: `format!("{octet:02x}")`. -/
def byteHex (b : Byte) : List Char :=
  [hexDigit (b / 16 % 16), hexDigit (b % 16)]

/-- Lower-case hex string of a byte list, no separators: the fold at the
end of `JobDescription::digest`. -/
def hexString (bytes : List Byte) : String :=
  String.mk (bytes.map byteHex).flatten

/-! ## Job descriptor and jid digest (`crates/petri-core/src/job_mgr.rs`)

`StartInfo` (`crates/petri-core/src/process.rs`): strings are UTF-8 byte
lists; `env` is the `HashMap<String, String>` given as its entries in
iteration order (the order `env.iter()` yields them to the hasher). -/

structure StartInfo where
  program : List Byte
  args : Option (List (List Byte))
  cwd : List Byte
  env : List (List Byte × List Byte)
  log_path : Option (List Byte)

structure JobDescription where
  start_info : StartInfo
  auto_restart : Bool

/-- The argument bytes hashed by `JobDescription::digest`: for `Some(args)`
each argument followed by `","`; nothing for `None`. -/
def argsBytes : Option (List (List Byte)) → List Byte
  | none => []
  | some args => (args.map (fun a => a ++ [44])).flatten

/-- The environment bytes hashed by `JobDescription::digest`: for each
entry in iteration order, `key ":" value ","`. -/
def envBytes (env : List (List Byte × List Byte)) : List Byte :=
  (env.map (fun kv => kv.1 ++ [58] ++ kv.2 ++ [44])).flatten

/-- The exact byte stream `JobDescription::digest` feeds to the SHA-1
hasher: `be64(seed) || program || "(" || args || ")" || cwd || "{" || env
|| "}" || [log_path bytes] || [auto_restart as 0/1]`. -/
def digestInput (jd : JobDescription) (seed : Nat) : List Byte :=
  toBE64 seed ++ jd.start_info.program ++ [40]
    ++ argsBytes jd.start_info.args ++ [41]
    ++ jd.start_info.cwd ++ [123]
    ++ envBytes jd.start_info.env ++ [125]
    ++ (match jd.start_info.log_path with
        | some p => p
        | none => [])
    ++ [if jd.auto_restart then 1 else 0]

/-- Model of `JobDescription::digest`: lower-case hex of the SHA-1 of the stream. -/
def JobDescription.digest (jd : JobDescription) (seed : Nat) : String :=
  hexString (sha1 (digestInput jd seed))

theorem hexString_toList (bytes : List Byte) :
    (hexString bytes).toList = (bytes.map byteHex).flatten := rfl

theorem hexString_length (bytes : List Byte) :
    (hexString bytes).length = ((bytes.map byteHex).flatten).length := rfl

theorem sha1_length (msg : List Byte) : (sha1 msg).length = 20 := by
  simp only [sha1]
  generalize (chunks64 _).foldl sha1Block _ = r
  obtain ⟨h0, h1, h2, h3, h4⟩ := r
  simp [toBE32]

theorem byteHex_flatten_length (bytes : List Byte) :
    ((bytes.map byteHex).flatten).length = 2 * bytes.length := by
  induction bytes with
  | nil => simp
  | cons b rest ih =>
    simp [byteHex, ih]
    omega

theorem hexDigit_range : ∀ n, n < 16 →
    (48 ≤ (hexDigit n).toNat ∧ (hexDigit n).toNat ≤ 57)
    ∨ (97 ≤ (hexDigit n).toNat ∧ (hexDigit n).toNat ≤ 102) := by decide

theorem hexString_chars (bytes : List Byte) :
    ∀ c ∈ (bytes.map byteHex).flatten,
      (48 ≤ c.toNat ∧ c.toNat ≤ 57) ∨ (97 ≤ c.toNat ∧ c.toNat ≤ 102) := by
  induction bytes with
  | nil => simp
  | cons b rest ih =>
    intro c hc
    simp only [List.map_cons, List.flatten_cons, List.mem_append] at hc
    rcases hc with hc | hc
    · simp only [byteHex, List.mem_cons, List.mem_singleton] at hc
      rcases hc with hc | hc | hc
      · subst hc; exact hexDigit_range _ (Nat.mod_lt _ (by norm_num))
      · subst hc; exact hexDigit_range _ (Nat.mod_lt _ (by norm_num))
      · cases hc
    · exact ih c hc

/-- The fixed descriptor of scenario S5:
`(program="p", args=None, cwd="/", env={}, log_path=None, auto_restart=false)`. -/
def descS5 : JobDescription :=
  ⟨⟨asciiBytes "p", none, asciiBytes "/", [], none⟩, false⟩

/-- Claim C9: For the S5 descriptor with `seed_millis = 0`, the jid is the
lower-case hex SHA-1 of: eight `0x00` bytes, the ASCII bytes of `"p"`,
`"("`, `")"`, `"/"`, `"\x7b"`, `"\x7d"`, then the single byte `0x00`. -/
theorem digest_s5_jid_stability :
    JobDescription.digest descS5 0
      = hexString (sha1 ([0, 0, 0, 0, 0, 0, 0, 0] ++ asciiBytes "p"
          ++ asciiBytes "(" ++ asciiBytes ")" ++ asciiBytes "/"
          ++ asciiBytes "\x7b" ++ asciiBytes "\x7d" ++ [0])) := by
  show hexString (sha1 (digestInput descS5 0)) = _
  exact congrArg (fun l => hexString (sha1 l)) (by decide)

/-- A descriptor whose `HashMap` environment `{A: 1, B: 2}` is iterated in
the order `A, B`. -/
def descEnvAB : JobDescription :=
  ⟨⟨asciiBytes "p", none, asciiBytes "/",
    [(asciiBytes "A", asciiBytes "1"), (asciiBytes "B", asciiBytes "2")],
    none⟩, false⟩

/-- The same environment contents iterated in the order `B, A`. -/
def descEnvBA : JobDescription :=
  ⟨⟨asciiBytes "p", none, asciiBytes "/",
    [(asciiBytes "B", asciiBytes "2"), (asciiBytes "A", asciiBytes "1")],
    none⟩, false⟩

/-- Claim C5, counterexample: The digest is *not* independent of the
`HashMap` iteration order of the environment: the same two-entry
environment fed to the hasher in its two possible orders yields two
different jid strings (the code hashes `env.iter()` entries in whatever
order the map yields them). -/
theorem digest_env_order_counterexample :
    JobDescription.digest descEnvAB 0 ≠ JobDescription.digest descEnvBA 0 := by
  decide

/-- Claim C5, amended: For a fixed descriptor, a fixed seed *and a fixed
iteration order of the environment map*, the digest is a deterministic
function whose value is always a 40-character string of lower-case hex
digits (`0`-`9`, `a`-`f`); order-independence over the environment fails
(see the counterexample). -/
theorem digest_fixed_order_hex40 (jd : JobDescription) (seed : Nat) :
    (JobDescription.digest jd seed).length = 40
    ∧ ∀ c ∈ (JobDescription.digest jd seed).toList,
        (48 ≤ c.toNat ∧ c.toNat ≤ 57) ∨ (97 ≤ c.toNat ∧ c.toNat ≤ 102) := by
  constructor
  · rw [JobDescription.digest, hexString_length, byteHex_flatten_length, sha1_length]
  · intro c hc
    rw [JobDescription.digest, hexString_toList] at hc
    exact hexString_chars (sha1 (digestInput jd seed)) c hc

/-- Witness for the amended C5: applied to the S5 descriptor, including a
concrete character of its digest for the membership hypothesis. -/
theorem digest_fixed_order_hex40_witness :
    (JobDescription.digest descS5 0).length = 40
    ∧ ((48 ≤ (Char.ofNat 48).toNat ∧ (Char.ofNat 48).toNat ≤ 57)
       ∨ (97 ≤ (Char.ofNat 48).toNat ∧ (Char.ofNat 48).toNat ≤ 102)) :=
  ⟨(digest_fixed_order_hex40 descS5 0).1,
   (digest_fixed_order_hex40 descS5 0).2 (Char.ofNat 48) (by decide)⟩

/-! ## Supervisor pipe reader: `Inner::read_stdio`
(`crates/petri-core/src/process.rs`, identically `src/proc_mgr/process.rs`)

The task owns `let mut buf = vec![0; 1024]` and loops on `pipe.read(&mut
buf)`.  We model the sequence of outcomes the pipe produces as a list:
`ok bytes` is a successful read that stored `bytes` into the front of
`buf` and returned `bytes.length` (so `ok []` is the EOF return of 0),
`err interrupted` is an `Err` whose kind is `Interrupted` iff the flag is
set. -/

inductive ReadResult where
  | ok (bytes : List Byte)
  | err (interrupted : Bool)

/-- The sequence of `write_output` payloads the reader task publishes, in
order, when the pipe yields `events` and the chunk buffer currently holds
`buf`:

* `ok bs` with `bs ≠ []` overwrites the first `|bs|` bytes of `buf` and
  publishes `&buf[0..cnt] = bs`;
* `ok []` (EOF) breaks the loop, after which the task runs
  `if !buf.is_empty() { write_output(&buf) }` on the full chunk buffer;
* `err true` (`Interrupted`) retries;
* `err false` hits `todo!()`, which panics and abandons the task (no
  further writes);
* an exhausted event list is a pipe that never yielded again (the task is
  still parked in `read`). -/
def readStdio (buf : List Byte) : List ReadResult → List (List Byte)
  | [] => []
  | ReadResult.ok [] :: _ => if buf.isEmpty then [] else [buf]
  | ReadResult.ok bs :: rest => bs :: readStdio (bs ++ buf.drop bs.length) rest
  | ReadResult.err true :: rest => readStdio buf rest
  | ReadResult.err false :: _ => []

/-- Claim C1, code-bug evidence: The reader does *not* stop publishing at
EOF: with the initial 1 KiB zeroed chunk buffer, a single 2-byte read of
`"hi"` followed by EOF produces the correct 2-byte publication *and then
one more* `write_output` of the entire stale 1024-byte chunk buffer,
because after the EOF `break` the code runs
`if !buf.is_empty() { write_output(&buf) }` and `buf` (capacity 1024) is
never empty. -/
theorem readStdio_publishes_stale_chunk_after_eof :
    readStdio (List.replicate 1024 0)
        [ReadResult.ok (asciiBytes "hi"), ReadResult.ok []]
      = [asciiBytes "hi", asciiBytes "hi" ++ List.replicate 1022 0]
    ∧ (asciiBytes "hi" ++ List.replicate 1022 0).length = 1024 := by
  constructor
  · rfl
  · simp [asciiBytes]

/-! ## Job registry (`crates/petri-core/src/job_mgr.rs`)

`Job` records and the registry state: the insertion-ordered
`jobs: IndexMap<String, Job>` and the `pid_index: HashMap<u32, String>`,
both modelled as association lists with unique keys.  The two write locks
are taken together in both `start_job` and the exit callback, so each
operation is one atomic function on the combined state. -/

structure Job where
  id : String
  desc : JobDescription
  created_at : Nat
  pid : Option Nat
  last_exit_code : Option Int

structure RegistryState where
  jobs : List (String × Job)
  pid_index : List (Nat × String)

/-- Model of `jobs.get_mut(jid)` followed by a field update: apply `f` to the
record stored at key `jid` (an `IndexMap` holds each key once). -/
def updateJob (jobs : List (String × Job)) (jid : String) (f : Job → Job) :
    List (String × Job) :=
  jobs.map (fun kv => if kv.1 = jid then (kv.1, f kv.2) else kv)

/-- Model of `map.remove(&k)` on a map with unique keys. -/
def removeKey {β : Type} : List (Nat × β) → Nat → List (Nat × β)
  | [], _ => []
  | kv :: rest, k => if kv.1 = k then removeKey rest k else kv :: removeKey rest k

/-- Model of `Handle::handle_process_exit` of the job registry: under both write
locks, look `pid` up in the index; if absent, return with nothing
changed; otherwise clear the owning record's `pid`, set its
`last_exit_code`, and remove the index entry.  `none` models the
`.expect("internal state is inconsistent")` panic when the indexed jid
has no job record. -/
def registryHandleProcessExit (st : RegistryState) (pid : Nat) (code : Int) :
    Option RegistryState :=
  match alookup st.pid_index pid with
  | none => some st
  | some jid =>
    match alookup st.jobs jid with
    | none => none
    | some _ =>
        some { jobs := updateJob st.jobs jid
                 (fun j => { j with pid := none, last_exit_code := some code }),
               pid_index := removeKey st.pid_index pid }

theorem alookup_updateJob_self (jobs : List (String × Job)) (jid : String)
    (f : Job → Job) :
    alookup (updateJob jobs jid f) jid = (alookup jobs jid).map f := by
  induction jobs with
  | nil => simp [updateJob, alookup]
  | cons kv rest ih =>
    simp only [updateJob, List.map_cons]
    by_cases hk : kv.1 = jid
    · rw [if_pos hk]
      simp [alookup, hk]
    · rw [if_neg hk]
      simp only [alookup, hk, if_false]
      exact ih

theorem alookup_updateJob_ne (jobs : List (String × Job)) (jid jid' : String)
    (f : Job → Job) (h : jid' ≠ jid) :
    alookup (updateJob jobs jid f) jid' = alookup jobs jid' := by
  induction jobs with
  | nil => simp [updateJob, alookup]
  | cons kv rest ih =>
    simp only [updateJob, List.map_cons]
    by_cases hk : kv.1 = jid
    · rw [if_pos hk]
      have hne : kv.1 ≠ jid' := fun he => h (he.symm.trans hk)
      simp only [alookup, hne, if_false]
      exact ih
    · rw [if_neg hk]
      simp only [alookup]
      by_cases hk' : kv.1 = jid'
      · simp [hk']
      · simp only [hk', if_false]
        exact ih

theorem alookup_removeKey_self {β : Type} (l : List (Nat × β)) (k : Nat) :
    alookup (removeKey l k) k = none := by
  induction l with
  | nil => simp [removeKey, alookup]
  | cons kv rest ih =>
    simp only [removeKey]
    by_cases hk : kv.1 = k
    · rw [if_pos hk]
      exact ih
    · rw [if_neg hk]
      simp only [alookup, hk, if_false]
      exact ih

theorem alookup_removeKey_ne {β : Type} (l : List (Nat × β)) (k k' : Nat)
    (h : k' ≠ k) :
    alookup (removeKey l k) k' = alookup l k' := by
  induction l with
  | nil => simp [removeKey]
  | cons kv rest ih =>
    simp only [removeKey]
    by_cases hk : kv.1 = k
    · rw [if_pos hk]
      have hne : kv.1 ≠ k' := fun he => h (he.symm.trans hk)
      simp only [alookup, hne, if_false]
      exact ih
    · rw [if_neg hk]
      simp only [alookup]
      by_cases hk' : kv.1 = k'
      · simp [hk']
      · simp only [hk', if_false]
        exact ih

/-- Claim C4: When the registry's exit callback processes `(pid, code)`:
if `pid` is indexed (and the invariant holds, so the indexed jid owns a
record), the owning record gets `pid := None` and
`last_exit_code := Some code`, the pid entry leaves the index, and every
other job and every other index entry is untouched — all in the one
atomic step the two write locks delimit; if `pid` is not indexed, the
whole registry state is returned unchanged. -/
theorem registry_exit_callback_spec (st : RegistryState) (pid : Nat) (code : Int) :
    (alookup st.pid_index pid = none →
       registryHandleProcessExit st pid code = some st)
  ∧ (∀ jid j, alookup st.pid_index pid = some jid →
       alookup st.jobs jid = some j →
       ∃ st', registryHandleProcessExit st pid code = some st'
         ∧ alookup st'.jobs jid
             = some { j with pid := none, last_exit_code := some code }
         ∧ alookup st'.pid_index pid = none
         ∧ (∀ jid', jid' ≠ jid → alookup st'.jobs jid' = alookup st.jobs jid')
         ∧ (∀ p', p' ≠ pid →
              alookup st'.pid_index p' = alookup st.pid_index p')) := by
  constructor
  · intro hnone
    simp [registryHandleProcessExit, hnone]
  · intro jid j hidx hj
    refine ⟨{ jobs := updateJob st.jobs jid
                (fun j => { j with pid := none, last_exit_code := some code }),
              pid_index := removeKey st.pid_index pid },
            ?_, ?_, ?_, ?_, ?_⟩
    · simp [registryHandleProcessExit, hidx, hj]
    · dsimp only
      rw [alookup_updateJob_self, hj]
      rfl
    · dsimp only
      exact alookup_removeKey_self st.pid_index pid
    · intro jid' hne
      dsimp only
      exact alookup_updateJob_ne st.jobs jid jid' _ hne
    · intro p' hne
      dsimp only
      exact alookup_removeKey_ne st.pid_index pid p' hne

/-- A concrete job record used by witnesses. -/
def jobW : Job := ⟨"a", descS5, 0, some 5, none⟩

/-- Witness for C4: the indexed branch applied to a one-job registry in
which pid 5 is bound to jid `"a"`. -/
theorem registry_exit_callback_spec_witness :
    ∃ st', registryHandleProcessExit ⟨[("a", jobW)], [(5, "a")]⟩ 5 0 = some st'
      ∧ alookup st'.jobs "a"
          = some { jobW with pid := none, last_exit_code := some 0 }
      ∧ alookup st'.pid_index 5 = none
      ∧ (∀ jid', jid' ≠ "a" →
           alookup st'.jobs jid'
             = alookup (⟨[("a", jobW)], [(5, "a")]⟩ : RegistryState).jobs jid')
      ∧ (∀ p', p' ≠ 5 →
           alookup st'.pid_index p'
             = alookup (⟨[("a", jobW)], [(5, "a")]⟩ : RegistryState).pid_index p') :=
  (registry_exit_callback_spec ⟨[("a", jobW)], [(5, "a")]⟩ 5 0).2 "a" jobW rfl rfl

/-! ## `Handle::start_job` (`crates/petri-core/src/job_mgr.rs`) -/

inductive StartJobError where
  | unknownJid
  | alreadyRunning
  | spawnFailed

/-- Model of `Handle::start_job`: under both write locks, fail `UnknownJid` when
the jid has no record, fail `AlreadyRunning` when the record already has
a pid, otherwise spawn via `proc_mgr_handle.add_process` (its outcome is
the `spawn` argument; `none` is a spawn error, which `?` propagates), and
only then set the record's pid and insert into the pid index.  Returns
the final registry state together with the result. -/
def startJob (st : RegistryState) (jid : String) (spawn : Option Nat) :
    RegistryState × Except StartJobError Nat :=
  match alookup st.jobs jid with
  | none => (st, Except.error StartJobError.unknownJid)
  | some job =>
    if job.pid.isSome then
      (st, Except.error StartJobError.alreadyRunning)
    else
      match spawn with
      | none => (st, Except.error StartJobError.spawnFailed)
      | some pid =>
          ({ jobs := updateJob st.jobs jid (fun j => { j with pid := some pid }),
             pid_index := (pid, jid) :: st.pid_index },
           Except.ok pid)

/-- Claim C10: `start_job` is atomic on failure: whenever it returns an
error — unknown jid, job already running, or spawn failure — the jobs map
and the pid index are exactly as they were before the call. -/
theorem start_job_atomic_on_failure (st : RegistryState) (jid : String)
    (spawn : Option Nat) (e : StartJobError)
    (h : (startJob st jid spawn).2 = Except.error e) :
    (startJob st jid spawn).1 = st := by
  unfold startJob at h ⊢
  cases halook : alookup st.jobs jid with
  | none => simp [halook]
  | some job =>
    simp only [halook] at h ⊢
    by_cases hpid : job.pid.isSome
    · simp [hpid]
    · simp only [hpid, if_false] at h ⊢
      cases spawn with
      | none => simp
      | some pid => simp at h

/-- Witness for C10: starting an unknown jid in the empty registry fails
and leaves the registry untouched. -/
theorem start_job_atomic_on_failure_witness :
    (startJob ⟨[], []⟩ "x" none).1 = ⟨[], []⟩ :=
  start_job_atomic_on_failure ⟨[], []⟩ "x" none StartJobError.unknownJid rfl

/-! ## Process manager (`crates/petri-core/src/process_mgr.rs`)

The live map `processes: IndexMap<u32, Process>` is an association list
keyed by pid.  A record carries the fields the claims observe; `exitCode`
is the exit code the supervisor's watcher publishes for it, which its
`kill` returns (see the kill state machine below). -/

structure ProcRecord where
  id : Nat
  cmd : List Byte
  exitCode : Int

/-- Model of `Handle::handle_process_exit` of the process manager: take the write
lock, `processes.remove(&id)`, drop the lock, then call
`handler.handle_process_exit(id, exit_code)` on every registered event
handler.  Handlers are identified by their subscriber-list ids; each
dispatch is returned as `(handler, pid, code, map)` where `map` is the
live map as the handler observes it if it re-queries the manager during
dispatch. -/
def mgrHandleProcessExit (procs : List (Nat × ProcRecord)) (handlers : List Nat)
    (pid : Nat) (code : Int) :
    List (Nat × ProcRecord) × List (Nat × Nat × Int × List (Nat × ProcRecord)) :=
  let procs' := removeKey procs pid
  (procs', handlers.map (fun h => (h, pid, code, procs')))

/-- Claim C6: The manager's exit dispatch removes the record for `pid`
before invoking the handlers: every registered handler is invoked exactly
once with `(pid, code)`, the map each of them can observe during dispatch
no longer contains `pid`, and every other pid's record is untouched. -/
theorem mgr_exit_removes_before_dispatch (procs : List (Nat × ProcRecord))
    (handlers : List Nat) (pid : Nat) (code : Int) :
    alookup (mgrHandleProcessExit procs handlers pid code).1 pid = none
  ∧ (mgrHandleProcessExit procs handlers pid code).2.length = handlers.length
  ∧ (∀ call ∈ (mgrHandleProcessExit procs handlers pid code).2,
       call.2.1 = pid ∧ call.2.2.1 = code
         ∧ call.2.2.2 = (mgrHandleProcessExit procs handlers pid code).1
         ∧ alookup call.2.2.2 pid = none)
  ∧ (∀ p', p' ≠ pid →
       alookup (mgrHandleProcessExit procs handlers pid code).1 p'
         = alookup procs p') := by
  refine ⟨?_, ?_, ?_, ?_⟩
  · exact alookup_removeKey_self procs pid
  · simp [mgrHandleProcessExit]
  · intro call hcall
    simp only [mgrHandleProcessExit, List.mem_map] at hcall
    obtain ⟨h, _, hEq⟩ := hcall
    subst hEq
    exact ⟨rfl, rfl, rfl, alookup_removeKey_self procs pid⟩
  · intro p' hne
    exact alookup_removeKey_ne procs pid p' hne

/-- A concrete process record used by witnesses: pid 3, which the watcher
will report exit code 7 for. -/
def procW : ProcRecord := ⟨3, asciiBytes "/bin/echo hi", 7⟩

/-- Witness for C6: exit of pid 3 in a one-process manager; the map seen
during dispatch lacks pid 3, and pid 7 lookups are untouched. -/
theorem mgr_exit_removes_before_dispatch_witness :
    alookup (mgrHandleProcessExit [(3, procW)] [1] 3 0).1 3 = none
    ∧ alookup (mgrHandleProcessExit [(3, procW)] [1] 3 0).1 7
        = alookup [(3, procW)] 7 :=
  ⟨(mgr_exit_removes_before_dispatch [(3, procW)] [1] 3 0).1,
   (mgr_exit_removes_before_dispatch [(3, procW)] [1] 3 0).2.2.2 7 (by decide)⟩

/-! ## `Handle::stop_process` and the `stop` command handler
(`crates/petri-core/src/process_mgr.rs`, `src/control/command/stop.rs`) -/

inductive StopError where
  | unknownPid

/-- Model of `Handle::stop_process`: look the pid up under the read lock; when
absent, fail (`UnknownPid`, the "process ... is not found" error);
otherwise delegate to the supervisor's `kill`, which returns the
published exit code.  The second component is the live map as the
(read-only) call leaves it. -/
def stopProcess (procs : List (Nat × ProcRecord)) (pid : Nat) :
    Except StopError Int × List (Nat × ProcRecord) :=
  match alookup procs pid with
  | none => (Except.error StopError.unknownPid, procs)
  | some p => (Except.ok p.exitCode, procs)

/-- One response frame of the control-channel protocol. -/
inductive Frame where
  | output (text : String)
  | response (payload : String)

/-- Model of `StopSubcommand::run`: call `stop_process`; on success write one
`Output` frame `"process stopped with exit code K\n"` and finish ok; on
error write one `Output` frame
`"failed to stop the process (is it running?)\n"` and finish with the
error (`true` in the second component). -/
def stopCommandRun (procs : List (Nat × ProcRecord)) (pid : Nat) :
    List Frame × Bool :=
  match (stopProcess procs pid).1 with
  | Except.ok exit_code =>
      ([Frame.output ("process stopped with exit code " ++ toString exit_code ++ "\n")],
       false)
  | Except.error _ =>
      ([Frame.output "failed to stop the process (is it running?)\n"], true)

/-- Claim C8: `stop_process` on an absent pid fails with `UnknownPid` and
leaves the map unchanged, and the `stop` handler then writes exactly one
`Output` frame `"failed to stop the process (is it running?)\n"` and
completes with an error, emitting no `Response` frame; on a present pid
the handler writes exactly one `Output` frame
`"process stopped with exit code K\n"` for the exit code `K` that
`stop_process` returned, and completes without error. -/
theorem stop_process_spec (procs : List (Nat × ProcRecord)) (pid : Nat) :
    (alookup procs pid = none →
       stopProcess procs pid = (Except.error StopError.unknownPid, procs)
     ∧ stopCommandRun procs pid
         = ([Frame.output "failed to stop the process (is it running?)\n"], true))
  ∧ (∀ p, alookup procs pid = some p →
       stopProcess procs pid = (Except.ok p.exitCode, procs)
     ∧ stopCommandRun procs pid
         = ([Frame.output ("process stopped with exit code "
              ++ toString p.exitCode ++ "\n")], false)) := by
  constructor
  · intro hnone
    constructor
    · simp [stopProcess, hnone]
    · simp [stopCommandRun, stopProcess, hnone]
  · intro p hp
    constructor
    · simp [stopProcess, hp]
    · simp [stopCommandRun, stopProcess, hp]

/-- Witness for C8: pid 999999 in an empty manager (scenario S3), and the
success branch for the concrete record `procW`. -/
theorem stop_process_spec_witness :
    (stopProcess [] 999999 = (Except.error StopError.unknownPid, [])
     ∧ stopCommandRun [] 999999
         = ([Frame.output "failed to stop the process (is it running?)\n"], true))
    ∧ stopCommandRun [(3, procW)] 3
        = ([Frame.output ("process stopped with exit code "
             ++ toString procW.exitCode ++ "\n")], false) :=
  ⟨(stop_process_spec [] 999999).1 rfl,
   ((stop_process_spec [(3, procW)] 3).2 procW rfl).2⟩

/-! ## Supervisor state machine: `Process::kill` and the watcher task
(`crates/petri-core/src/process.rs`)

`State` is `Running(kill_signal_tx, exit_code_rx)` /
`Terminating(exit_code_rx)` / `Terminated(i32)` (plus the transient
`Invalid` marker that only exists inside the mutex-guarded swap, so it is
not a state of the model).  The channels are modelled by explicit system
components:

* `killTriggered` — whether the oneshot kill trigger has been fired
  (`kill_signal_tx.send(())`);
* `watch` — the current value of the `watch::channel(None)` exit-code
  broadcast (`none` until the watcher sends);
* `terminatedSet` — whether the watcher has performed its one
  `*state_guard = State::Terminated(exit_code)` write;
* `pendingKills` — `kill` calls that hold an `exit_code_rx` clone and are
  awaiting `changed()`;
* `returns` — the exit codes returned by completed `kill` calls, most
  recent first. -/

inductive PState where
  | running
  | terminating
  | terminated (code : Int)

structure SupState where
  st : PState
  killTriggered : Bool
  watch : Option Int
  terminatedSet : Bool
  pendingKills : Nat
  returns : List Int

/-- The state right after `Process::spawn`: `State::Running` with the
trigger unfired, the watch holding `None`, and no kills in flight. -/
def supInit : SupState :=
  ⟨PState.running, false, none, false, 0, []⟩

/-- One atomic step of the supervisor system.  The three `kill_*` steps
are the mutex-guarded `match` in `Process::kill`; the two `watcher_*`
steps are the tail of the watcher task in `Inner::monit_process`
(`exit_code_tx.send(Some(exit_code))`, then the lock-guarded
`*state_guard = State::Terminated(exit_code)`); `kill_complete` is a
waiting `kill` resuming from `exit_code_rx.changed()` and returning
`*exit_code_rx.borrow_and_update()`. -/
inductive SupStep : SupState → SupState → Prop where
  /-- A `kill` finds `Running`: fires the kill trigger, stores
  `Terminating(exit_code_rx.clone())`, keeps a receiver and awaits. -/
  | kill_running (s : SupState) (h : s.st = PState.running) :
      SupStep s { s with st := PState.terminating, killTriggered := true,
                         pendingKills := s.pendingKills + 1 }
  /-- A `kill` finds `Terminating`: re-stores `Terminating` with a clone of
  the receiver and awaits. -/
  | kill_terminating (s : SupState) (h : s.st = PState.terminating) :
      SupStep s { s with pendingKills := s.pendingKills + 1 }
  /-- A `kill` finds `Terminated(c)`: re-stores it and returns `c` at once,
  without awaiting. -/
  | kill_terminated (s : SupState) (c : Int) (h : s.st = PState.terminated c) :
      SupStep s { s with returns := c :: s.returns }
  /-- The watcher learns the child's exit status and publishes the exit
  code on the watch (the single `exit_code_tx.send`). -/
  | watcher_publish (s : SupState) (c : Int) (h : s.watch = none) :
      SupStep s { s with watch := some c }
  /-- The watcher then sets the state to `Terminated` (once). -/
  | watcher_set_terminated (s : SupState) (c : Int) (h1 : s.watch = some c)
      (h2 : s.terminatedSet = false) :
      SupStep s { s with st := PState.terminated c, terminatedSet := true }
  /-- A waiting `kill` resumes: the watch holds the published code, which
  the call returns. -/
  | kill_complete (s : SupState) (c : Int) (h1 : s.watch = some c)
      (h2 : 0 < s.pendingKills) :
      SupStep s { s with pendingKills := s.pendingKills - 1,
                         returns := c :: s.returns }

/-- States reachable from the post-spawn state. -/
inductive SupReachable : SupState → Prop where
  | init : SupReachable supInit
  | step {s s' : SupState} :
      SupReachable s → SupStep s s' → SupReachable s'

/-- The inductive invariant for C3: a `Terminated` state stores exactly
the published code, every returned exit code is the published code, and
the watcher writes `Terminated` only after publishing. -/
def SupInv (s : SupState) : Prop :=
  (∀ c, s.st = PState.terminated c → s.watch = some c)
  ∧ (∀ r ∈ s.returns, s.watch = some r)
  ∧ (s.terminatedSet = true → s.watch ≠ none)

theorem supInv_init : SupInv supInit := by
  refine ⟨?_, ?_, ?_⟩ <;> simp [supInit]

theorem supInv_step {s s' : SupState} (hinv : SupInv s) (hstep : SupStep s s') :
    SupInv s' := by
  obtain ⟨h1, h2, h3⟩ := hinv
  cases hstep with
  | kill_running h =>
    refine ⟨?_, h2, h3⟩
    intro c hc
    simp at hc
  | kill_terminating h =>
    exact ⟨h1, h2, h3⟩
  | kill_terminated c h =>
    refine ⟨h1, ?_, h3⟩
    intro r hr
    simp only [List.mem_cons] at hr
    rcases hr with hr | hr
    · subst hr; exact h1 _ h
    · exact h2 r hr
  | watcher_publish c h =>
    have hret : s.returns = [] := by
      cases hrets : s.returns with
      | nil => rfl
      | cons r rest =>
        have := h2 r (by rw [hrets]; exact List.mem_cons_self r rest)
        rw [h] at this
        cases this
    refine ⟨?_, ?_, ?_⟩
    · intro c' hc'
      have := h1 c' hc'
      rw [h] at this
      cases this
    · intro r hr
      rw [hret] at hr
      cases hr
    · intro _
      simp
  | watcher_set_terminated c hw hts =>
    refine ⟨?_, h2, ?_⟩
    · intro c' hc'
      simp only [PState.terminated.injEq] at hc'
      rw [← hc']
      exact hw
    · intro _
      rw [hw]
      simp
  | kill_complete c hw hp =>
    refine ⟨h1, ?_, h3⟩
    intro r hr
    simp only [List.mem_cons] at hr
    rcases hr with hr | hr
    · subst hr; exact hw
    · exact h2 r hr

theorem supInv_reachable {s : SupState} (h : SupReachable s) : SupInv s := by
  induction h with
  | init => exact supInv_init
  | step _ hstep ih => exact supInv_step ih hstep

/-- Claim C3: In every reachable supervisor state, every exit code a `kill`
call has returned — whether it returned immediately out of `Terminated`
or resumed from the exit watch, and regardless of how many concurrent
`kill` / `stop_process` calls ran — is the one exit code the watcher task
published on the watch; in particular any two returned codes are equal. -/
theorem kill_returns_published (s : SupState) (h : SupReachable s) :
    (∀ r ∈ s.returns, s.watch = some r)
  ∧ (∀ r r', r ∈ s.returns → r' ∈ s.returns → r = r') := by
  have hinv := supInv_reachable h
  refine ⟨hinv.2.1, ?_⟩
  intro r r' hr hr'
  have e1 := hinv.2.1 r hr
  have e2 := hinv.2.1 r' hr'
  rw [e1] at e2
  exact Option.some.inj e2

/-- A concrete reachable state: spawn, one `kill`, the watcher publishes
exit code 0 and sets `Terminated`, and the kill completes. -/
theorem supReachable_example :
    SupReachable ⟨PState.terminated 0, true, some 0, true, 0, [0]⟩ := by
  have h1 : SupStep supInit
      ⟨PState.terminating, true, none, false, 1, []⟩ :=
    SupStep.kill_running supInit rfl
  have h2 : SupStep ⟨PState.terminating, true, none, false, 1, []⟩
      ⟨PState.terminating, true, some 0, false, 1, []⟩ :=
    SupStep.watcher_publish _ 0 rfl
  have h3 : SupStep ⟨PState.terminating, true, some 0, false, 1, []⟩
      ⟨PState.terminated 0, true, some 0, true, 1, []⟩ :=
    SupStep.watcher_set_terminated _ 0 rfl rfl
  have h4 : SupStep ⟨PState.terminated 0, true, some 0, true, 1, []⟩
      ⟨PState.terminated 0, true, some 0, true, 0, [0]⟩ :=
    SupStep.kill_complete _ 0 rfl (by decide)
  exact SupReachable.step
    (SupReachable.step (SupReachable.step (SupReachable.step SupReachable.init h1) h2) h3) h4

/-- Witness for C3: the theorem applied to the concrete reachable state
above. -/
theorem kill_returns_published_witness :
    (⟨PState.terminated 0, true, some 0, true, 0, [0]⟩ : SupState).watch = some 0 :=
  (kill_returns_published ⟨PState.terminated 0, true, some 0, true, 0, [0]⟩
      supReachable_example).1 0 (by decide)

/-- Multi-step executions of the supervisor system. -/
inductive SupSteps : SupState → SupState → Prop where
  | refl (s : SupState) : SupSteps s s
  | tail {s t u : SupState} : SupSteps s t → SupStep t u → SupSteps s u

/-- Progress rank of a supervisor state:
`Running < Terminating < Terminated`. -/
def rank : PState → Nat
  | PState.running => 0
  | PState.terminating => 1
  | PState.terminated _ => 2

/-- Auxiliary invariant for C7: a `Terminated` state implies the watcher
has already performed its one state write. -/
def SupTermFlag (s : SupState) : Prop :=
  ∀ c, s.st = PState.terminated c → s.terminatedSet = true

theorem supTermFlag_init : SupTermFlag supInit := by
  intro c hc
  simp [supInit] at hc

theorem supTermFlag_step {s s' : SupState} (hflag : SupTermFlag s)
    (hstep : SupStep s s') : SupTermFlag s' := by
  cases hstep with
  | kill_running h => intro c hc; simp at hc
  | kill_terminating h => exact hflag
  | kill_terminated c h => exact hflag
  | watcher_publish c h => exact hflag
  | watcher_set_terminated c hw hts => intro c' _; rfl
  | kill_complete c hw hp => exact hflag

theorem supTermFlag_reachable {s : SupState} (h : SupReachable s) :
    SupTermFlag s := by
  induction h with
  | init => exact supTermFlag_init
  | step _ hstep ih => exact supTermFlag_step ih hstep

theorem rank_le_two (p : PState) : rank p ≤ 2 := by
  cases p <;> simp [rank]

/-- One step only moves the state forward. -/
theorem supStep_forward {s s' : SupState} (hflag : SupTermFlag s)
    (hstep : SupStep s s') :
    rank s.st ≤ rank s'.st
    ∧ ∀ c, s.st = PState.terminated c → s'.st = PState.terminated c := by
  cases hstep with
  | kill_running h =>
    constructor
    · rw [h]; simp [rank]
    · intro c hc; rw [h] at hc; cases hc
  | kill_terminating h =>
    exact ⟨Nat.le_refl _, fun c hc => hc⟩
  | kill_terminated c h =>
    exact ⟨Nat.le_refl _, fun c' hc => hc⟩
  | watcher_publish c h =>
    exact ⟨Nat.le_refl _, fun c' hc => hc⟩
  | watcher_set_terminated c hw hts =>
    constructor
    · simp only [rank]
      exact rank_le_two s.st
    · intro c' hc
      have := hflag c' hc
      rw [this] at hts
      cases hts
  | kill_complete c hw hp =>
    exact ⟨Nat.le_refl _, fun c' hc => hc⟩

theorem supSteps_forward_aux {s s' : SupState} (hflag : SupTermFlag s)
    (hsteps : SupSteps s s') :
    SupTermFlag s'
    ∧ rank s.st ≤ rank s'.st
    ∧ ∀ c, s.st = PState.terminated c → s'.st = PState.terminated c := by
  induction hsteps with
  | refl => exact ⟨hflag, Nat.le_refl _, fun c hc => hc⟩
  | tail hst hstep ih =>
    obtain ⟨hf, hr, hz⟩ := ih
    have hone := supStep_forward hf hstep
    exact ⟨supTermFlag_step hf hstep, Nat.le_trans hr hone.1,
           fun c hc => hone.2 c (hz c hc)⟩

/-- Claim C7: Along every execution that starts at a reachable supervisor
state, the state only moves forward: the rank
`Running < Terminating < Terminated` never decreases; once the state is
`Terminated(c)` it stays `Terminated(c)` forever (the stored exit code is
frozen); from `Running` the state can only stay, become `Terminating`
(kill), or become `Terminated` (the child exited on its own); from
`Terminating` it can only stay or become `Terminated` — never return to
`Running`. -/
theorem state_forward_only (s s' : SupState) (hreach : SupReachable s)
    (hsteps : SupSteps s s') :
    rank s.st ≤ rank s'.st
  ∧ (∀ c, s.st = PState.terminated c → s'.st = PState.terminated c)
  ∧ (s.st = PState.running →
       s'.st = PState.running ∨ s'.st = PState.terminating
       ∨ ∃ c, s'.st = PState.terminated c)
  ∧ (s.st = PState.terminating →
       s'.st = PState.terminating ∨ ∃ c, s'.st = PState.terminated c) := by
  obtain ⟨_, hr, hz⟩ :=
    supSteps_forward_aux (supTermFlag_reachable hreach) hsteps
  refine ⟨hr, hz, ?_, ?_⟩
  · intro _
    cases hs' : s'.st with
    | running => exact Or.inl rfl
    | terminating => exact Or.inr (Or.inl rfl)
    | terminated c => exact Or.inr (Or.inr ⟨c, rfl⟩)
  · intro hterm
    rw [hterm] at hr
    cases hs' : s'.st with
    | running =>
      rw [hs'] at hr
      simp [rank] at hr
    | terminating => exact Or.inl rfl
    | terminated c => exact Or.inr ⟨c, rfl⟩

/-- Witness for C7: one `kill` step from the post-spawn state. -/
theorem state_forward_only_witness :
    rank supInit.st
      ≤ rank (⟨PState.terminating, true, none, false, 1, []⟩ : SupState).st :=
  (state_forward_only supInit ⟨PState.terminating, true, none, false, 1, []⟩
      SupReachable.init
      (SupSteps.tail (SupSteps.refl supInit)
        (SupStep.kill_running supInit rfl))).1

end Petri
